import Mathlib

/-
  Verification of the chancell buffer-chain structure.

  The program builds an unbounded queue from a chain of bounded buffers
  (cells).  A producer cursor (ChanCellTail) owns growth and
  termination; a consumer cursor advances along the chain.  We embed
  the structure shallowly: cells are identified by their creation index
  (pointer identity in the source becomes index identity, since every
  cell is allocated exactly once), the state holds the cell store and
  both cursors, and each lock-protected region of the source is one
  atomic Lean function (every mutation of shared state in the source
  happens under either the tail's RWMutex or a cell's own mutex, so
  lock-region granularity is the faithful atomicity for an interleaving
  semantics).

  Cell fields `opened` and `closed` count invocations of the
  caller-supplied Open/Close callbacks; `cap` records the capacity the
  core passed to the caller-supplied initNewChanCell initializer; `enq`
  records the messages the caller's enqueue attempts wrote into this
  cell's bounded buffer (in write order, the buffer being FIFO) and
  `rd` how many of them the consumer has taken out.

  The source's capacity counter n is a Go int (64-bit two's
  complement, with defined wrap-around on overflow), so the doubling
  in expand is modelled as multiplication followed by reduction into
  [-2^63, 2^63) via `wrap64`; `n` and `cap` are Lean Int values kept
  in that range.
-/

/-- One ChanCell of the chain, with instrumentation for the callback
counts and for the buffer contents that the caller attaches. -/
structure Cell where
  next    : Option Nat
  drained : Bool
  opened  : Nat
  closed  : Nat
  cap     : Int
  enq     : List Nat
  rd      : Nat
deriving DecidableEq

/-- Global state: the cell store (indices below `numCells` are the
cells created so far, in creation order), the tail cursor (`none`
models the nil "closed" sentinel written by Terminate), the tail's
capacity counter `n`, whether the Terminated channel has been closed,
the consumer cursor `head`, and the sequence `log` of messages the
consumer has observed so far. -/
structure ChainState where
  cells      : Nat → Cell
  numCells   : Nat
  tail       : Option Nat
  n          : Int
  termClosed : Bool
  head       : Nat
  log        : List Nat

def nextOf (s : ChainState) (i : Nat) : Option Nat := (s.cells i).next

def drainedOf (s : ChainState) (i : Nat) : Bool := (s.cells i).drained

def openedOf (s : ChainState) (i : Nat) : Nat := (s.cells i).opened

def closedOf (s : ChainState) (i : Nat) : Nat := (s.cells i).closed

def capOf (s : ChainState) (i : Nat) : Int := (s.cells i).cap

def enqOf (s : ChainState) (i : Nat) : List Nat := (s.cells i).enq

def rdOf (s : ChainState) (i : Nat) : Nat := (s.cells i).rd

/-- Replace cell `i` by `f` applied to it. -/
def updateCell (s : ChainState) (i : Nat) (f : Cell → Cell) : ChainState :=
  { s with cells := fun j => if j = i then f (s.cells i) else s.cells j }

/-- The constant DefaultChanLength of the source. -/
def DefaultChanLength : Int := 16

/-- Reduction of an integer into the range of Go's 64-bit two's
complement int: Go defines signed overflow as wrap-around, so the
source's machine arithmetic on `tail.n` is Lean arithmetic followed
by this reduction. -/
def wrap64 (x : Int) : Int := (x + 2 ^ 63) % 2 ^ 64 - 2 ^ 63

/-- A freshly allocated ChanCell handed to initNewChanCell with the
given capacity. -/
def newCell (cap : Int) : Cell :=
  { next := none, drained := false, opened := 0, closed := 0,
    cap := cap, enq := [], rd := 0 }

/-- NewChanCellTail: one cell of capacity DefaultChanLength, the tail
cursor on it, n = DefaultChanLength, and head.cell.Open() invoked once
on the first cell. -/
def initialState : ChainState :=
  { cells := fun j => if j = 0 then { newCell DefaultChanLength with opened := 1 }
      else newCell 0,
    numCells := 1, tail := some 0, n := DefaultChanLength,
    termClosed := false, head := 0, log := [] }

/-- ChanCellTail.expand, one atomic step (its whole body runs under the
tail's exclusive lock): re-check that the tail cursor still points at
`read`; if so allocate one new cell, double n, initialize the new cell
with the doubled n, set read.next, advance the tail cursor, and invoke
read.Close(); otherwise change nothing. -/
def expandFn (s : ChainState) (read : Nat) : ChainState :=
  if s.tail = some read then
    let idx := s.numCells
    let s1 : ChainState :=
      { s with cells := fun j => if j = idx then newCell (wrap64 (s.n * 2)) else s.cells j,
               numCells := idx + 1, n := wrap64 (s.n * 2) }
    let s2 := updateCell s1 read (fun c => { c with next := some idx })
    let s3 : ChainState := { s2 with tail := some idx }
    updateCell s3 read (fun c => { c with closed := c.closed + 1 })
  else s

/-- ChanCellTail.Terminate: set the tail cursor to the nil sentinel and
close the Terminated channel.  Go's close on an already-closed channel
panics; the panic is modelled as `none`. -/
def terminateFn (s : ChainState) : Option ChainState :=
  if s.termClosed then none
  else some { s with tail := none, termClosed := true }

/-- A successful enqueue attempt run by Tail.WithCell under the shared
lock: the caller's attempt writes one message into the buffer of the
cell the tail cursor currently designates. -/
def enqueueFn (s : ChainState) (t : Nat) (m : Nat) : ChainState :=
  updateCell s t (fun c => { c with enq := c.enq ++ [m] })

/-- The locked region of ChanCell.Next on the receiver: read next, and
if the cell is not yet drained, mark it drained and invoke the
successor's Open().  (With a nil successor the source would fault; no
state changes in that case.) -/
def markDrainedFn (s : ChainState) (c : Nat) : ChainState :=
  match nextOf s c with
  | none => s
  | some d =>
    if drainedOf s c then s
    else
      updateCell (updateCell s c (fun k => { k with drained := true })) d
        (fun k => { k with opened := k.opened + 1 })

/-- ChanCell.Next (fuel-indexed for the recursion): run the receiver's
locked region, then read the successor's drained flag under its own
lock; recurse into the successor when it is already drained, else
return it.  `none` models running out of fuel or a nil successor. -/
def cellNextFn : Nat → ChainState → Nat → Option (ChainState × Nat)
  | 0, _, _ => none
  | fuel + 1, s, c =>
    match nextOf s c with
    | none => none
    | some d =>
      let s1 := markDrainedFn s c
      if drainedOf s1 d then cellNextFn fuel s1 d else some (s1, d)

/-- The consumer reads one message out of its current cell's buffer. -/
def consumeFn (s : ChainState) : ChainState :=
  let c := s.cells s.head
  if h : c.rd < c.enq.length then
    let s1 := updateCell s s.head (fun k => { k with rd := k.rd + 1 })
    { s1 with log := s.log ++ [c.enq.get ⟨c.rd, h⟩] }
  else s

/-- The consumer, having exhausted its current cell's buffer and seen
its write side sealed (a successor exists), advances the consumer
cursor through the cell's Next protocol: run the drain/open region and
move to the successor. -/
def advanceHeadFn (s : ChainState) : ChainState :=
  let c := s.cells s.head
  if c.rd = c.enq.length then
    match c.next with
    | none => s
    | some d => { markDrainedFn s s.head with head := d }
  else s

/-- One atomic step of the system: any producer, grower, terminator or
consumer action, interleaved arbitrarily. -/
inductive Step : ChainState → ChainState → Prop where
  | enqueue (s : ChainState) (t : Nat) (m : Nat) (h : s.tail = some t) :
      Step s (enqueueFn s t m)
  | expand (s : ChainState) (r : Nat) : Step s (expandFn s r)
  | terminate (s s' : ChainState) (h : terminateFn s = some s') : Step s s'
  | consume (s : ChainState) : Step s (consumeFn s)
  | advanceHead (s : ChainState) : Step s (advanceHeadFn s)
  | markDrained (s : ChainState) (c : Nat) : Step s (markDrainedFn s c)

/-- States reachable from the freshly created chain. -/
def Reachable (s : ChainState) : Prop :=
  Relation.ReflTransGen Step initialState s

/-- The caller-supplied CurCellConsumer of the source: a function from
the cell handed over (and the caller's own private state σ, standing
for its captured closures and channels) to a success flag and an
optional replacement consumer.  The structural state is not touchable
by the consumer except through these signals. -/
inductive Consumer (σ : Type) : Type where
  | mk (f : Nat → σ → Bool × Option (Consumer σ) × σ) : Consumer σ

def Consumer.run {σ : Type} : Consumer σ → Nat → σ → Bool × Option (Consumer σ) × σ
  | mk f => f

/-- ChanCellTail.WithCell, fuel-indexed: each iteration reads the tail
cursor under the shared lock, returns false at the nil sentinel, runs
the consumer on the current cell, returns true on success, expands and
retries with the same consumer when the consumer gave no continuation,
and retries with the continuation otherwise.  `none` is fuel
exhaustion (the source loop spinning forever). -/
def withCell {σ : Type} : Nat → ChainState → σ → Consumer σ → Option (Bool × ChainState × σ)
  | 0, _, _, _ => none
  | fuel + 1, s, x, f =>
    match s.tail with
    | none => some (false, s, x)
    | some c =>
      match f.run c x with
      | (true, _, x') => some (true, s, x')
      | (false, none, x') => withCell fuel (expandFn s c) x' f
      | (false, some g, x') => withCell fuel s x' g

/-- The pure walk underlying ChanCell.Next: the first cell after `c`
along the next links that is not drained. -/
def firstUndrained : Nat → ChainState → Nat → Option Nat
  | 0, _, _ => none
  | fuel + 1, s, c =>
    match nextOf s c with
    | none => none
    | some d => if drainedOf s d then firstUndrained fuel s d else some d

/-- The concatenation e 0 ++ e 1 ++ ... ++ e (k-1); applied to
`enqOf s` it is the messages ever written into cells 0..k-1 in chain
creation order (within one cell, in buffer write order). -/
def enqChain (e : Nat → List Nat) : Nat → List Nat
  | 0 => []
  | k + 1 => enqChain e k ++ e k

theorem wrap64_shift (x : Int) : ∃ m : Int, wrap64 x = x + 2 ^ 64 * m := by
  refine ⟨-((x + 2 ^ 63) / 2 ^ 64), ?_⟩
  unfold wrap64
  rw [Int.emod_def]
  ring

theorem wrap64_add_multiple (x m : Int) : wrap64 (x + 2 ^ 64 * m) = wrap64 x := by
  unfold wrap64
  congr 1
  rw [show x + 2 ^ 64 * m + 2 ^ 63 = x + 2 ^ 63 + 2 ^ 64 * m by ring]
  exact Int.add_mul_emod_self_left (x + 2 ^ 63) (2 ^ 64) m

theorem wrap64_double (x : Int) : wrap64 (wrap64 x * 2) = wrap64 (x * 2) := by
  obtain ⟨m, hm⟩ := wrap64_shift x
  rw [hm, show (x + 2 ^ 64 * m) * 2 = x * 2 + 2 ^ 64 * (2 * m) by ring,
    wrap64_add_multiple]

theorem wrap64_eq_self {x : Int} (h1 : -(2 ^ 63) ≤ x) (h2 : x < 2 ^ 63) :
    wrap64 x = x := by
  unfold wrap64
  have hb1 : (0 : Int) ≤ x + 2 ^ 63 := by linarith
  have hb2 : x + 2 ^ 63 < 2 ^ 64 := by
    have h64 : (2 : Int) ^ 64 = 2 ^ 63 + 2 ^ 63 := by norm_num
    linarith
  rw [Int.emod_eq_of_lt hb1 hb2]
  ring

theorem cells_updateCell (s : ChainState) (i : Nat) (f : Cell → Cell) (j : Nat) :
    (updateCell s i f).cells j = if j = i then f (s.cells i) else s.cells j := rfl

theorem expandFn_neg {s : ChainState} {r : Nat} (h : ¬ s.tail = some r) :
    expandFn s r = s := by
  unfold expandFn; rw [if_neg h]

theorem expandFn_tail {s : ChainState} {r : Nat} (h : s.tail = some r) :
    (expandFn s r).tail = some s.numCells := by
  unfold expandFn; rw [if_pos h]; rfl

theorem expandFn_numCells {s : ChainState} {r : Nat} (h : s.tail = some r) :
    (expandFn s r).numCells = s.numCells + 1 := by
  unfold expandFn; rw [if_pos h]; rfl

theorem expandFn_n {s : ChainState} {r : Nat} (h : s.tail = some r) :
    (expandFn s r).n = wrap64 (s.n * 2) := by
  unfold expandFn; rw [if_pos h]; rfl

theorem expandFn_other (s : ChainState) (r : Nat) :
    (expandFn s r).termClosed = s.termClosed ∧ (expandFn s r).head = s.head
    ∧ (expandFn s r).log = s.log := by
  unfold expandFn; split <;> exact ⟨rfl, rfl, rfl⟩

theorem cells_expandFn {s : ChainState} {r : Nat} (h : s.tail = some r)
    (hr : r ≠ s.numCells) (j : Nat) :
    (expandFn s r).cells j =
      if j = r then
        { s.cells r with next := some s.numCells, closed := (s.cells r).closed + 1 }
      else if j = s.numCells then newCell (wrap64 (s.n * 2))
      else s.cells j := by
  unfold expandFn updateCell
  rw [if_pos h]
  by_cases hjr : j = r
  · subst hjr; simp [hr]
  · simp [hjr]

theorem cells_enqueueFn (s : ChainState) (t m j : Nat) :
    (enqueueFn s t m).cells j =
      if j = t then { s.cells t with enq := (s.cells t).enq ++ [m] }
      else s.cells j := rfl

theorem enqueueFn_other (s : ChainState) (t m : Nat) :
    (enqueueFn s t m).tail = s.tail ∧ (enqueueFn s t m).numCells = s.numCells
    ∧ (enqueueFn s t m).n = s.n ∧ (enqueueFn s t m).termClosed = s.termClosed
    ∧ (enqueueFn s t m).head = s.head ∧ (enqueueFn s t m).log = s.log :=
  ⟨rfl, rfl, rfl, rfl, rfl, rfl⟩

theorem markDrainedFn_of_next_none {s : ChainState} {c : Nat}
    (h : nextOf s c = none) : markDrainedFn s c = s := by
  unfold markDrainedFn; rw [h]

theorem markDrainedFn_of_drained {s : ChainState} {c : Nat}
    (h : drainedOf s c = true) : markDrainedFn s c = s := by
  unfold markDrainedFn
  split
  · rfl
  · rw [if_pos h]

theorem cells_markDrainedFn {s : ChainState} {c d : Nat}
    (hn : nextOf s c = some d) (hd : drainedOf s c = false) (hdc : d ≠ c) (j : Nat) :
    (markDrainedFn s c).cells j =
      if j = c then { s.cells c with drained := true }
      else if j = d then { s.cells d with opened := (s.cells d).opened + 1 }
      else s.cells j := by
  simp only [markDrainedFn, hn, hd, Bool.false_eq_true, if_false, updateCell]
  by_cases hjd : j = d
  · subst hjd; simp [hdc]
  · by_cases hjc : j = c
    · subst hjc; simp [Ne.symm hdc]
    · simp [hjc, hjd]

theorem markDrainedFn_other (s : ChainState) (c : Nat) :
    (markDrainedFn s c).tail = s.tail ∧ (markDrainedFn s c).numCells = s.numCells
    ∧ (markDrainedFn s c).n = s.n ∧ (markDrainedFn s c).termClosed = s.termClosed
    ∧ (markDrainedFn s c).head = s.head ∧ (markDrainedFn s c).log = s.log := by
  unfold markDrainedFn
  split
  · exact ⟨rfl, rfl, rfl, rfl, rfl, rfl⟩
  · split
    · exact ⟨rfl, rfl, rfl, rfl, rfl, rfl⟩
    · exact ⟨rfl, rfl, rfl, rfl, rfl, rfl⟩

theorem terminateFn_of_open {s : ChainState} (h : s.termClosed = false) :
    terminateFn s = some { s with tail := none, termClosed := true } := by
  unfold terminateFn
  rw [h]
  rfl

theorem terminateFn_of_closed {s : ChainState} (h : s.termClosed = true) :
    terminateFn s = none := by
  unfold terminateFn; rw [h]; rfl

theorem consumeFn_of_done {s : ChainState}
    (h : ¬ (s.cells s.head).rd < (s.cells s.head).enq.length) :
    consumeFn s = s := by
  simp only [consumeFn]
  rw [dif_neg h]

theorem cells_consumeFn {s : ChainState}
    (h : (s.cells s.head).rd < (s.cells s.head).enq.length) (j : Nat) :
    (consumeFn s).cells j =
      if j = s.head then { s.cells s.head with rd := (s.cells s.head).rd + 1 }
      else s.cells j := by
  simp only [consumeFn]
  rw [dif_pos h]
  rfl

theorem consumeFn_log {s : ChainState}
    (h : (s.cells s.head).rd < (s.cells s.head).enq.length) :
    (consumeFn s).log
      = s.log ++ [(s.cells s.head).enq.get ⟨(s.cells s.head).rd, h⟩] := by
  simp only [consumeFn]
  rw [dif_pos h]

theorem consumeFn_other (s : ChainState) :
    (consumeFn s).tail = s.tail ∧ (consumeFn s).numCells = s.numCells
    ∧ (consumeFn s).n = s.n ∧ (consumeFn s).termClosed = s.termClosed
    ∧ (consumeFn s).head = s.head := by
  by_cases h : (s.cells s.head).rd < (s.cells s.head).enq.length
  · simp only [consumeFn]; rw [dif_pos h]; exact ⟨rfl, rfl, rfl, rfl, rfl⟩
  · rw [consumeFn_of_done h]; exact ⟨rfl, rfl, rfl, rfl, rfl⟩

theorem advanceHeadFn_of_unread {s : ChainState}
    (h : ¬ (s.cells s.head).rd = (s.cells s.head).enq.length) :
    advanceHeadFn s = s := by
  simp only [advanceHeadFn]
  rw [if_neg h]

theorem advanceHeadFn_of_next_none {s : ChainState}
    (h : (s.cells s.head).rd = (s.cells s.head).enq.length)
    (hn : (s.cells s.head).next = none) :
    advanceHeadFn s = s := by
  simp only [advanceHeadFn]
  rw [if_pos h, hn]

theorem advanceHeadFn_of_next_some {s : ChainState} {d : Nat}
    (h : (s.cells s.head).rd = (s.cells s.head).enq.length)
    (hn : (s.cells s.head).next = some d) :
    advanceHeadFn s = { markDrainedFn s s.head with head := d } := by
  simp only [advanceHeadFn]
  rw [if_pos h, hn]

theorem getter_updateCell {α : Type} (g : Cell → α) (s : ChainState) (i : Nat)
    (f : Cell → Cell) (j : Nat) (hf : ∀ c, g (f c) = g c) :
    g ((updateCell s i f).cells j) = g (s.cells j) := by
  rw [cells_updateCell]
  split
  · next h => subst h; exact hf _
  · rfl

theorem getter_markDrainedFn {α : Type} (g : Cell → α)
    (h1 : ∀ c, g { c with drained := true } = g c)
    (h2 : ∀ c, g { c with opened := c.opened + 1 } = g c)
    (s : ChainState) (c : Nat) (j : Nat) :
    g ((markDrainedFn s c).cells j) = g (s.cells j) := by
  unfold markDrainedFn
  split
  · rfl
  · split
    · rfl
    · rw [getter_updateCell g _ _ _ _ h2, getter_updateCell g _ _ _ _ h1]

theorem enqChain_congr (e' e : Nat → List Nat) (k : Nat)
    (h : ∀ i, i < k → e' i = e i) :
    enqChain e' k = enqChain e k := by
  induction k with
  | zero => rfl
  | succ k ih =>
    show enqChain e' k ++ e' k = enqChain e k ++ e k
    rw [ih (fun i hi => h i (Nat.lt_succ_of_lt hi)), h k (Nat.lt_succ_self k)]

/-- The inductive invariant of the system: the chain is the linear
sequence of cells 0..numCells-1 linked in creation order, capacities
double from DefaultChanLength, Close has fired exactly once on every
cell that has a successor and never otherwise, Open has fired exactly
once on cell 0 and on every cell whose predecessor is drained and
never otherwise, the tail cursor (when not terminated) sits on the
last cell, the consumer cursor sits at or before the tail, cells
before the consumer are fully read, cells after it untouched, and the
consumer's observation log is exactly the messages of the cells before
the cursor plus the read part of the cursor's cell. -/
structure ChainInv (s : ChainState) : Prop where
  numPos : 0 < s.numCells
  tailLast : ∀ t, s.tail = some t → t + 1 = s.numCells
  nEq : s.n = wrap64 (DefaultChanLength * 2 ^ (s.numCells - 1))
  capEq : ∀ i, i < s.numCells → capOf s i = wrap64 (DefaultChanLength * 2 ^ i)
  nextEq : ∀ i, i < s.numCells →
      nextOf s i = if i + 1 < s.numCells then some (i + 1) else none
  closedEq : ∀ i, i < s.numCells →
      closedOf s i = if i + 1 < s.numCells then 1 else 0
  headLt : s.head < s.numCells
  headLeTail : ∀ t, s.tail = some t → s.head ≤ t
  rdLe : ∀ i, rdOf s i ≤ (enqOf s i).length
  rdBefore : ∀ i, i < s.head → rdOf s i = (enqOf s i).length
  rdAfter : ∀ i, s.head < i → rdOf s i = 0
  logEq : s.log = enqChain (enqOf s) s.head ++ (enqOf s s.head).take (rdOf s s.head)
  openedEq : ∀ i, i < s.numCells →
      openedOf s i = if i = 0 then 1 else if drainedOf s (i - 1) then 1 else 0
  drainedSucc : ∀ i, drainedOf s i = true → i + 1 < s.numCells
  unalloc : ∀ i, s.numCells ≤ i → s.cells i = newCell 0

theorem initialState_cells_ne {i : Nat} (h : ¬ i = 0) :
    initialState.cells i = newCell 0 := if_neg h

theorem inv_initialState : ChainInv initialState := by
  have hnum : initialState.numCells = 1 := rfl
  have hhead : initialState.head = 0 := rfl
  refine ⟨?_, ?_, ?_, ?_, ?_, ?_, ?_, ?_, ?_, ?_, ?_, ?_, ?_, ?_, ?_⟩
  · exact Nat.one_pos
  · intro t ht
    have ht' : (some 0 : Option Nat) = some t := ht
    have : (0 : Nat) = t := Option.some.inj ht'
    rw [hnum, ← this]
  · show (16 : Int) = wrap64 (DefaultChanLength * 2 ^ 0)
    rw [wrap64_eq_self (by norm_num [DefaultChanLength]) (by norm_num [DefaultChanLength])]
    norm_num [DefaultChanLength]
  · intro i hi
    have hi' : i < 1 := hnum ▸ hi
    have : i = 0 := by omega
    subst this
    show (16 : Int) = wrap64 (DefaultChanLength * 2 ^ 0)
    rw [wrap64_eq_self (by norm_num [DefaultChanLength]) (by norm_num [DefaultChanLength])]
    norm_num [DefaultChanLength]
  · intro i hi
    have hi' : i < 1 := hnum ▸ hi
    have : i = 0 := by omega
    subst this; rfl
  · intro i hi
    have hi' : i < 1 := hnum ▸ hi
    have : i = 0 := by omega
    subst this; rfl
  · exact Nat.one_pos
  · intro t ht
    exact Nat.zero_le t
  · intro i
    by_cases h : i = 0
    · subst h; exact Nat.le_refl 0
    · simp only [rdOf, enqOf, initialState_cells_ne h]
      exact Nat.le_refl 0
  · intro i hi
    rw [hhead] at hi
    omega
  · intro i hi
    rw [hhead] at hi
    have h : ¬ i = 0 := by omega
    simp only [rdOf, initialState_cells_ne h]
    rfl
  · rfl
  · intro i hi
    have hi' : i < 1 := hnum ▸ hi
    have : i = 0 := by omega
    subst this; rfl
  · intro i hdr
    exfalso
    by_cases h : i = 0
    · subst h
      simp only [drainedOf] at hdr
      exact absurd hdr (by decide)
    · simp only [drainedOf, initialState_cells_ne h] at hdr
      exact absurd hdr (by decide)
  · intro i hi
    rw [hnum] at hi
    exact initialState_cells_ne (by omega)

theorem enqueueFn_enq (s : ChainState) (t m : Nat) (j : Nat) :
    enqOf (enqueueFn s t m) j = if j = t then enqOf s t ++ [m] else enqOf s j := by
  show Cell.enq ((updateCell s t _).cells j) = _
  rw [cells_updateCell]
  split
  · rfl
  · rfl

theorem inv_terminateFn {s s' : ChainState} (hs : ChainInv s)
    (h : terminateFn s = some s') : ChainInv s' := by
  unfold terminateFn at h
  split at h
  · exact absurd h (by simp)
  · replace h := Option.some.inj h
    subst h
    refine ⟨hs.numPos, ?_, hs.nEq, hs.capEq, hs.nextEq, hs.closedEq, hs.headLt, ?_,
      hs.rdLe, hs.rdBefore, hs.rdAfter, ?_, hs.openedEq, hs.drainedSucc, hs.unalloc⟩
    · intro t ht; exact absurd ht (by simp)
    · intro t ht; exact absurd ht (by simp)
    · exact hs.logEq

theorem inv_enqueueFn {s : ChainState} {t : Nat} (hs : ChainInv s) (m : Nat)
    (h : s.tail = some t) : ChainInv (enqueueFn s t m) := by
  have htn : t + 1 = s.numCells := hs.tailLast t h
  have hht : s.head ≤ t := hs.headLeTail t h
  have hcap : ∀ j, capOf (enqueueFn s t m) j = capOf s j :=
    fun j => getter_updateCell Cell.cap s t _ j (fun c => rfl)
  have hnext : ∀ j, nextOf (enqueueFn s t m) j = nextOf s j :=
    fun j => getter_updateCell Cell.next s t _ j (fun c => rfl)
  have hclosed : ∀ j, closedOf (enqueueFn s t m) j = closedOf s j :=
    fun j => getter_updateCell Cell.closed s t _ j (fun c => rfl)
  have hopened : ∀ j, openedOf (enqueueFn s t m) j = openedOf s j :=
    fun j => getter_updateCell Cell.opened s t _ j (fun c => rfl)
  have hdrained : ∀ j, drainedOf (enqueueFn s t m) j = drainedOf s j :=
    fun j => getter_updateCell Cell.drained s t _ j (fun c => rfl)
  have hrd : ∀ j, rdOf (enqueueFn s t m) j = rdOf s j :=
    fun j => getter_updateCell Cell.rd s t _ j (fun c => rfl)
  refine ⟨hs.numPos, hs.tailLast, hs.nEq, ?_, ?_, ?_, hs.headLt, hs.headLeTail,
    ?_, ?_, ?_, ?_, ?_, ?_, ?_⟩
  · intro i hi; rw [hcap]; exact hs.capEq i hi
  · intro i hi; rw [hnext]; exact hs.nextEq i hi
  · intro i hi; rw [hclosed]; exact hs.closedEq i hi
  · intro i
    rw [hrd, enqueueFn_enq]
    split
    · next hit =>
      subst hit
      calc rdOf s i ≤ (enqOf s i).length := hs.rdLe i
        _ ≤ (enqOf s i ++ [m]).length := by simp
    · exact hs.rdLe i
  · intro i hi
    have hi' : i < s.head := hi
    rw [hrd, enqueueFn_enq]
    rw [if_neg (by omega)]
    exact hs.rdBefore i hi'
  · intro i hi
    have hi' : s.head < i := hi
    rw [hrd]; exact hs.rdAfter i hi'
  · show s.log = enqChain (enqOf (enqueueFn s t m)) s.head
      ++ (enqOf (enqueueFn s t m) s.head).take (rdOf (enqueueFn s t m) s.head)
    rw [enqChain_congr (enqOf (enqueueFn s t m)) (enqOf s) s.head
      (fun i hi => by rw [enqueueFn_enq]; exact if_neg (by omega))]
    rw [hrd, enqueueFn_enq]
    by_cases hht' : s.head = t
    · rw [if_pos hht']
      rw [List.take_append_of_le_length (hht' ▸ hs.rdLe s.head), ← hht']
      exact hs.logEq
    · rw [if_neg hht']
      exact hs.logEq
  · intro i hi
    rw [hopened, hdrained]
    exact hs.openedEq i hi
  · intro i hi
    rw [hdrained] at hi
    exact hs.drainedSucc i hi
  · intro i hi
    have hi' : s.numCells ≤ i := hi
    show (updateCell s t _).cells i = newCell 0
    rw [cells_updateCell, if_neg (by omega)]
    exact hs.unalloc i hi'

theorem newCell_next (cap : Int) : (newCell cap).next = none := rfl

theorem nextOf_some_facts {s : ChainState} (hs : ChainInv s) {c d : Nat}
    (hn : nextOf s c = some d) : c + 1 < s.numCells ∧ d = c + 1 := by
  have hc : c < s.numCells := by
    by_contra hge
    have hu := hs.unalloc c (Nat.le_of_not_lt hge)
    rw [nextOf, hu, newCell_next] at hn
    exact absurd hn (by simp)
  have he := hs.nextEq c hc
  rw [hn] at he
  by_cases h1 : c + 1 < s.numCells
  · rw [if_pos h1] at he
    exact ⟨h1, Option.some.inj he⟩
  · rw [if_neg h1] at he
    exact absurd he (by simp)

theorem drainedOf_markDrainedFn {s : ChainState} {c d : Nat}
    (hn : nextOf s c = some d) (hd : drainedOf s c = false) (hdc : d ≠ c) (j : Nat) :
    drainedOf (markDrainedFn s c) j = if j = c then true else drainedOf s j := by
  show Cell.drained ((markDrainedFn s c).cells j) = _
  rw [cells_markDrainedFn hn hd hdc]
  by_cases hjc : j = c
  · simp [hjc]
  · by_cases hjd : j = d
    · simp [drainedOf, hjc, hjd, hdc]
    · simp [drainedOf, hjc, hjd]

theorem openedOf_markDrainedFn {s : ChainState} {c d : Nat}
    (hn : nextOf s c = some d) (hd : drainedOf s c = false) (hdc : d ≠ c) (j : Nat) :
    openedOf (markDrainedFn s c) j = if j = d then openedOf s d + 1 else openedOf s j := by
  show Cell.opened ((markDrainedFn s c).cells j) = _
  rw [cells_markDrainedFn hn hd hdc]
  by_cases hjc : j = c
  · have hjd : ¬ j = d := fun he => hdc (hjc ▸ he.symm)
    simp [openedOf, hjc, hjd, Ne.symm hdc]
  · by_cases hjd : j = d
    · simp [openedOf, hjc, hjd, hdc]
    · simp [openedOf, hjc, hjd]

theorem inv_markDrainedFn {s : ChainState} (hs : ChainInv s) (c : Nat) :
    ChainInv (markDrainedFn s c) := by
  cases hn : nextOf s c with
  | none => rw [markDrainedFn_of_next_none hn]; exact hs
  | some d =>
    by_cases hd0 : drainedOf s c
    · rw [markDrainedFn_of_drained hd0]; exact hs
    · have hd : drainedOf s c = false := by
        rwa [Bool.not_eq_true] at hd0
      obtain ⟨hc1, hde⟩ := nextOf_some_facts hs hn
      have hc : c < s.numCells := Nat.lt_of_succ_lt hc1
      have hdc : d ≠ c := by omega
      have hdrained := drainedOf_markDrainedFn hn hd hdc
      have hopened := openedOf_markDrainedFn hn hd hdc
      have hcap : ∀ j, capOf (markDrainedFn s c) j = capOf s j :=
        fun j => getter_markDrainedFn Cell.cap (fun k => rfl) (fun k => rfl) s c j
      have hnext : ∀ j, nextOf (markDrainedFn s c) j = nextOf s j :=
        fun j => getter_markDrainedFn Cell.next (fun k => rfl) (fun k => rfl) s c j
      have hclosed : ∀ j, closedOf (markDrainedFn s c) j = closedOf s j :=
        fun j => getter_markDrainedFn Cell.closed (fun k => rfl) (fun k => rfl) s c j
      have henq : ∀ j, enqOf (markDrainedFn s c) j = enqOf s j :=
        fun j => getter_markDrainedFn Cell.enq (fun k => rfl) (fun k => rfl) s c j
      have hrd : ∀ j, rdOf (markDrainedFn s c) j = rdOf s j :=
        fun j => getter_markDrainedFn Cell.rd (fun k => rfl) (fun k => rfl) s c j
      have hoth := markDrainedFn_other s c
      refine ⟨?_, ?_, ?_, ?_, ?_, ?_, ?_, ?_, ?_, ?_, ?_, ?_, ?_, ?_, ?_⟩
      · rw [hoth.2.1]; exact hs.numPos
      · intro t ht
        rw [hoth.1] at ht
        rw [hoth.2.1]
        exact hs.tailLast t ht
      · rw [hoth.2.2.1, hoth.2.1]; exact hs.nEq
      · intro i hi
        rw [hoth.2.1] at hi
        rw [hcap]
        exact hs.capEq i hi
      · intro i hi
        rw [hoth.2.1] at hi
        rw [hoth.2.1, hnext]
        exact hs.nextEq i hi
      · intro i hi
        rw [hoth.2.1] at hi
        rw [hoth.2.1, hclosed]
        exact hs.closedEq i hi
      · rw [hoth.2.2.2.2.1, hoth.2.1]; exact hs.headLt
      · intro t ht
        rw [hoth.1] at ht
        rw [hoth.2.2.2.2.1]
        exact hs.headLeTail t ht
      · intro i; rw [hrd, henq]; exact hs.rdLe i
      · intro i hi
        rw [hoth.2.2.2.2.1] at hi
        rw [hrd, henq]
        exact hs.rdBefore i hi
      · intro i hi
        rw [hoth.2.2.2.2.1] at hi
        rw [hrd]
        exact hs.rdAfter i hi
      · rw [hoth.2.2.2.2.2, hoth.2.2.2.2.1, hrd, henq]
        rw [enqChain_congr (enqOf (markDrainedFn s c)) (enqOf s) s.head
          (fun i _ => henq i)]
        exact hs.logEq
      · intro i hi
        rw [hoth.2.1] at hi
        rw [hopened, hdrained]
        by_cases hid : i = d
        · subst hid
          have hi0 : ¬ i = 0 := by omega
          have hif : i - 1 = c := by omega
          rw [if_pos rfl, hs.openedEq i hi, hif, hd]
          simp [hi0]
        · rw [if_neg hid]
          rw [hs.openedEq i hi]
          by_cases hi0 : i = 0
          · rw [if_pos hi0, if_pos hi0]
          · rw [if_neg hi0, if_neg hi0]
            have : ¬ i - 1 = c := by omega
            rw [if_neg this]
      · intro i hdr
        rw [hoth.2.1]
        rw [hdrained] at hdr
        by_cases hic : i = c
        · subst hic; exact hc1
        · rw [if_neg hic] at hdr
          exact hs.drainedSucc i hdr
      · intro i hi
        rw [hoth.2.1] at hi
        show (markDrainedFn s c).cells i = newCell 0
        rw [cells_markDrainedFn hn hd hdc, if_neg (by omega), if_neg (by omega)]
        exact hs.unalloc i hi

theorem inv_consumeFn {s : ChainState} (hs : ChainInv s) : ChainInv (consumeFn s) := by
  by_cases h : (s.cells s.head).rd < (s.cells s.head).enq.length
  · have hoth := consumeFn_other s
    have hcap : ∀ j, capOf (consumeFn s) j = capOf s j := by
      intro j
      show Cell.cap ((consumeFn s).cells j) = _
      rw [cells_consumeFn h]
      split <;> next he => first | (subst he; rfl) | rfl
    have hnext : ∀ j, nextOf (consumeFn s) j = nextOf s j := by
      intro j
      show Cell.next ((consumeFn s).cells j) = _
      rw [cells_consumeFn h]
      split <;> next he => first | (subst he; rfl) | rfl
    have hclosed : ∀ j, closedOf (consumeFn s) j = closedOf s j := by
      intro j
      show Cell.closed ((consumeFn s).cells j) = _
      rw [cells_consumeFn h]
      split <;> next he => first | (subst he; rfl) | rfl
    have hopened : ∀ j, openedOf (consumeFn s) j = openedOf s j := by
      intro j
      show Cell.opened ((consumeFn s).cells j) = _
      rw [cells_consumeFn h]
      split <;> next he => first | (subst he; rfl) | rfl
    have hdrained : ∀ j, drainedOf (consumeFn s) j = drainedOf s j := by
      intro j
      show Cell.drained ((consumeFn s).cells j) = _
      rw [cells_consumeFn h]
      split <;> next he => first | (subst he; rfl) | rfl
    have henq : ∀ j, enqOf (consumeFn s) j = enqOf s j := by
      intro j
      show Cell.enq ((consumeFn s).cells j) = _
      rw [cells_consumeFn h]
      split <;> next he => first | (subst he; rfl) | rfl
    have hrd : ∀ j, rdOf (consumeFn s) j
        = if j = s.head then rdOf s s.head + 1 else rdOf s j := by
      intro j
      show Cell.rd ((consumeFn s).cells j) = _
      rw [cells_consumeFn h]
      split <;> rfl
    refine ⟨?_, ?_, ?_, ?_, ?_, ?_, ?_, ?_, ?_, ?_, ?_, ?_, ?_, ?_, ?_⟩
    · rw [hoth.2.1]; exact hs.numPos
    · intro t ht
      rw [hoth.1] at ht
      rw [hoth.2.1]
      exact hs.tailLast t ht
    · rw [hoth.2.2.1, hoth.2.1]; exact hs.nEq
    · intro i hi
      rw [hoth.2.1] at hi
      rw [hcap]
      exact hs.capEq i hi
    · intro i hi
      rw [hoth.2.1] at hi
      rw [hoth.2.1, hnext]
      exact hs.nextEq i hi
    · intro i hi
      rw [hoth.2.1] at hi
      rw [hoth.2.1, hclosed]
      exact hs.closedEq i hi
    · rw [hoth.2.2.2.2, hoth.2.1]; exact hs.headLt
    · intro t ht
      rw [hoth.1] at ht
      rw [hoth.2.2.2.2]
      exact hs.headLeTail t ht
    · intro i
      rw [hrd, henq]
      have h' : rdOf s s.head < (enqOf s s.head).length := h
      split
      · next he => subst he; omega
      · exact hs.rdLe i
    · intro i hi
      rw [hoth.2.2.2.2] at hi
      rw [hrd, henq, if_neg (by omega)]
      exact hs.rdBefore i hi
    · intro i hi
      rw [hoth.2.2.2.2] at hi
      rw [hrd, if_neg (by omega)]
      exact hs.rdAfter i hi
    · rw [consumeFn_log h, hoth.2.2.2.2]
      rw [enqChain_congr (enqOf (consumeFn s)) (enqOf s) s.head (fun i _ => henq i)]
      rw [henq, hrd, if_pos rfl]
      rw [hs.logEq, List.append_assoc]
      have : (enqOf s s.head).take (rdOf s s.head + 1)
          = (enqOf s s.head).take (rdOf s s.head) ++ [(s.cells s.head).enq.get ⟨(s.cells s.head).rd, h⟩] := by
        exact (List.take_concat_get' (enqOf s s.head) (rdOf s s.head) h).symm
      rw [this]
    · intro i hi
      rw [hoth.2.1] at hi
      rw [hopened, hdrained]
      exact hs.openedEq i hi
    · intro i hdr
      rw [hoth.2.1]
      rw [hdrained] at hdr
      exact hs.drainedSucc i hdr
    · intro i hi
      rw [hoth.2.1] at hi
      have hl := hs.headLt
      show (consumeFn s).cells i = newCell 0
      rw [cells_consumeFn h, if_neg (by omega)]
      exact hs.unalloc i hi
  · rw [consumeFn_of_done h]; exact hs

theorem inv_advanceHeadFn {s : ChainState} (hs : ChainInv s) :
    ChainInv (advanceHeadFn s) := by
  by_cases h : (s.cells s.head).rd = (s.cells s.head).enq.length
  · cases hn : (s.cells s.head).next with
    | none => rw [advanceHeadFn_of_next_none h hn]; exact hs
    | some d =>
      have hn' : nextOf s s.head = some d := hn
      obtain ⟨hc1, hde⟩ := nextOf_some_facts hs hn'
      subst hde
      rw [advanceHeadFn_of_next_some h hn]
      have hsm := inv_markDrainedFn hs s.head
      have hoth := markDrainedFn_other s s.head
      have henq : ∀ j, enqOf (markDrainedFn s s.head) j = enqOf s j :=
        fun j => getter_markDrainedFn Cell.enq (fun k => rfl) (fun k => rfl) s s.head j
      have hrd : ∀ j, rdOf (markDrainedFn s s.head) j = rdOf s j :=
        fun j => getter_markDrainedFn Cell.rd (fun k => rfl) (fun k => rfl) s s.head j
      refine ⟨hsm.numPos, hsm.tailLast, hsm.nEq, hsm.capEq, hsm.nextEq, hsm.closedEq,
        ?_, ?_, hsm.rdLe, ?_, ?_, ?_, hsm.openedEq, hsm.drainedSucc, hsm.unalloc⟩
      · show s.head + 1 < (markDrainedFn s s.head).numCells
        rw [hoth.2.1]
        exact hc1
      · intro t ht
        show s.head + 1 ≤ t
        have ht' : (markDrainedFn s s.head).tail = some t := ht
        rw [hoth.1] at ht'
        have := hs.tailLast t ht'
        omega
      · intro i hi
        have hi' : i < s.head + 1 := hi
        show rdOf (markDrainedFn s s.head) i = (enqOf (markDrainedFn s s.head) i).length
        rw [hrd, henq]
        by_cases hih : i = s.head
        · subst hih; exact h
        · exact hs.rdBefore i (by omega)
      · intro i hi
        have hi' : s.head + 1 < i := hi
        show rdOf (markDrainedFn s s.head) i = 0
        rw [hrd]
        exact hs.rdAfter i (by omega)
      · show (markDrainedFn s s.head).log
          = enqChain (enqOf (markDrainedFn s s.head)) (s.head + 1)
            ++ (enqOf (markDrainedFn s s.head) (s.head + 1)).take
                (rdOf (markDrainedFn s s.head) (s.head + 1))
        rw [hoth.2.2.2.2.2, hrd, henq]
        rw [enqChain_congr (enqOf (markDrainedFn s s.head)) (enqOf s) (s.head + 1)
          (fun i _ => henq i)]
        rw [hs.rdAfter (s.head + 1) (by omega)]
        show s.log = (enqChain (enqOf s) s.head ++ enqOf s s.head) ++ []
        rw [List.append_nil, hs.logEq]
        have h2 : rdOf s s.head = (enqOf s s.head).length := h
        rw [h2, List.take_length]
  · rw [advanceHeadFn_of_unread h]; exact hs

theorem expandFn_getters {s : ChainState} {r : Nat} (h : s.tail = some r)
    (hrn : r ≠ s.numCells) :
    (∀ j, capOf (expandFn s r) j = if j = s.numCells then wrap64 (s.n * 2) else capOf s j)
    ∧ (∀ j, nextOf (expandFn s r) j = if j = r then some s.numCells
        else if j = s.numCells then none else nextOf s j)
    ∧ (∀ j, closedOf (expandFn s r) j = if j = r then closedOf s r + 1
        else if j = s.numCells then 0 else closedOf s j)
    ∧ (∀ j, openedOf (expandFn s r) j = if j = s.numCells then 0 else openedOf s j)
    ∧ (∀ j, drainedOf (expandFn s r) j = if j = s.numCells then false else drainedOf s j)
    ∧ (∀ j, enqOf (expandFn s r) j = if j = s.numCells then [] else enqOf s j)
    ∧ (∀ j, rdOf (expandFn s r) j = if j = s.numCells then 0 else rdOf s j) := by
  refine ⟨?_, ?_, ?_, ?_, ?_, ?_, ?_⟩ <;> intro j <;>
    [show Cell.cap ((expandFn s r).cells j) = _;
     show Cell.next ((expandFn s r).cells j) = _;
     show Cell.closed ((expandFn s r).cells j) = _;
     show Cell.opened ((expandFn s r).cells j) = _;
     show Cell.drained ((expandFn s r).cells j) = _;
     show Cell.enq ((expandFn s r).cells j) = _;
     show Cell.rd ((expandFn s r).cells j) = _] <;>
  · rw [cells_expandFn h hrn]
    by_cases hjr : j = r
    · subst hjr
      simp [capOf, nextOf, closedOf, openedOf, drainedOf, enqOf, rdOf, hrn]
    · by_cases hjn : j = s.numCells
      · subst hjn
        simp [capOf, nextOf, closedOf, openedOf, drainedOf, enqOf, rdOf,
          Ne.symm hrn, newCell]
      · simp [capOf, nextOf, closedOf, openedOf, drainedOf, enqOf, rdOf, hjr, hjn]

theorem inv_expandFn {s : ChainState} (hs : ChainInv s) (r : Nat) :
    ChainInv (expandFn s r) := by
  by_cases h : s.tail = some r
  · have hr1 : r + 1 = s.numCells := hs.tailLast r h
    have hrn : r ≠ s.numCells := by omega
    have hr : r < s.numCells := by omega
    obtain ⟨hcap, hnext, hclosed, hopened, hdrained, henq, hrd⟩ := expandFn_getters h hrn
    have htl := expandFn_tail h
    have hnm := expandFn_numCells h
    have hnn := expandFn_n h
    have hoth := expandFn_other s r
    have hpow : wrap64 (s.n * 2) = wrap64 (DefaultChanLength * 2 ^ s.numCells) := by
      obtain ⟨m, hm⟩ : ∃ m, s.numCells = m + 1 :=
        ⟨s.numCells - 1, by have := hs.numPos; omega⟩
      rw [hs.nEq, hm, Nat.add_sub_cancel, wrap64_double]
      congr 1
      rw [pow_succ]
      ring
    refine ⟨?_, ?_, ?_, ?_, ?_, ?_, ?_, ?_, ?_, ?_, ?_, ?_, ?_, ?_, ?_⟩
    · rw [hnm]; omega
    · intro t ht
      rw [htl] at ht
      rw [hnm, ← Option.some.inj ht]
    · rw [hnn, hnm, Nat.add_sub_cancel]
      exact hpow
    · intro i hi
      rw [hnm] at hi
      rw [hcap]
      by_cases hin : i = s.numCells
      · subst hin
        rw [if_pos rfl]
        exact hpow
      · rw [if_neg hin]
        exact hs.capEq i (by omega)
    · intro i hi
      rw [hnm] at hi
      rw [hnm, hnext]
      by_cases hir : i = r
      · subst hir
        rw [if_pos rfl, if_pos (by omega), hr1]
      · rw [if_neg hir]
        by_cases hin : i = s.numCells
        · subst hin
          rw [if_pos rfl, if_neg (by omega)]
        · rw [if_neg hin]
          have hi' : i < s.numCells := by omega
          have hi2 : i + 1 < s.numCells := by omega
          rw [hs.nextEq i hi', if_pos hi2, if_pos (by omega)]
    · intro i hi
      rw [hnm] at hi
      rw [hnm, hclosed]
      by_cases hir : i = r
      · subst hir
        rw [if_pos rfl, hs.closedEq i hr, if_neg (by omega), if_pos (by omega)]
      · rw [if_neg hir]
        by_cases hin : i = s.numCells
        · subst hin
          rw [if_pos rfl, if_neg (by omega)]
        · rw [if_neg hin]
          have hi' : i < s.numCells := by omega
          have hi2 : i + 1 < s.numCells := by omega
          rw [hs.closedEq i hi', if_pos hi2, if_pos (by omega)]
    · rw [hoth.2.1, hnm]
      have := hs.headLt
      omega
    · intro t ht
      rw [htl] at ht
      rw [hoth.2.1, ← Option.some.inj ht]
      have := hs.headLt
      omega
    · intro i
      rw [hrd, henq]
      by_cases hin : i = s.numCells
      · rw [if_pos hin, if_pos hin]
        exact Nat.le_refl 0
      · rw [if_neg hin, if_neg hin]
        exact hs.rdLe i
    · intro i hi
      rw [hoth.2.1] at hi
      have hh : s.head < s.numCells := hs.headLt
      rw [hrd, henq, if_neg (by omega), if_neg (by omega)]
      exact hs.rdBefore i hi
    · intro i hi
      rw [hoth.2.1] at hi
      rw [hrd]
      by_cases hin : i = s.numCells
      · rw [if_pos hin]
      · rw [if_neg hin]
        exact hs.rdAfter i hi
    · rw [hoth.2.2, hoth.2.1]
      have hh : s.head < s.numCells := hs.headLt
      have hcg : ∀ i, i < s.head → enqOf (expandFn s r) i = enqOf s i := by
        intro i hi
        rw [henq, if_neg (by omega)]
      rw [enqChain_congr (enqOf (expandFn s r)) (enqOf s) s.head hcg]
      rw [hrd, henq, if_neg (by omega), if_neg (by omega)]
      exact hs.logEq
    · intro i hi
      rw [hnm] at hi
      have hnp := hs.numPos
      rw [hopened, hdrained]
      by_cases hin : i = s.numCells
      · rw [if_pos hin]
        have hi0 : ¬ i = 0 := by omega
        have hpred : i - 1 = r := by omega
        have hdr : drainedOf s r = false := by
          cases hdr : drainedOf s r with
          | false => rfl
          | true => exact absurd (hs.drainedSucc r hdr) (by omega)
        rw [if_neg hi0, hpred, if_neg hrn, hdr]
        simp
      · rw [if_neg hin]
        have hi' : i < s.numCells := by omega
        rw [hs.openedEq i hi']
        by_cases hi0 : i = 0
        · rw [if_pos hi0, if_pos hi0]
        · have hlt : ¬ i - 1 = s.numCells := by omega
          rw [if_neg hi0, if_neg hi0, if_neg hlt]
    · intro i hdr
      rw [hnm]
      rw [hdrained] at hdr
      by_cases hin : i = s.numCells
      · rw [if_pos hin] at hdr
        exact absurd hdr (by simp)
      · rw [if_neg hin] at hdr
        have := hs.drainedSucc i hdr
        omega
    · intro i hi
      rw [hnm] at hi
      show (expandFn s r).cells i = newCell 0
      rw [cells_expandFn h hrn, if_neg (by omega), if_neg (by omega)]
      exact hs.unalloc i (by omega)
  · rw [expandFn_neg h]; exact hs

theorem inv_step {s s' : ChainState} (hs : ChainInv s) (h : Step s s') : ChainInv s' := by
  cases h with
  | enqueue t m ht => exact inv_enqueueFn hs m ht
  | expand r => exact inv_expandFn hs r
  | terminate s2 ht => exact inv_terminateFn hs ht
  | consume => exact inv_consumeFn hs
  | advanceHead => exact inv_advanceHeadFn hs
  | markDrained c => exact inv_markDrainedFn hs c

theorem inv_reachable {s : ChainState} (h : Reachable s) : ChainInv s := by
  induction h with
  | refl => exact inv_initialState
  | tail hr hstep ih => exact inv_step ih hstep

theorem markDrainedFn_next (s : ChainState) (c j : Nat) :
    nextOf (markDrainedFn s c) j = nextOf s j :=
  getter_markDrainedFn Cell.next (fun _ => rfl) (fun _ => rfl) s c j

theorem markDrained_drains {s : ChainState} {c d : Nat}
    (hn : nextOf s c = some d) (hd : drainedOf s c = false) :
    drainedOf (markDrainedFn s c) c = true := by
  have hd' : (s.cells c).drained = false := hd
  by_cases hcd : c = d
  · subst hcd
    simp [markDrainedFn, hn, drainedOf, updateCell, hd']
  · simp [markDrainedFn, hn, drainedOf, updateCell, hd', hcd]

theorem markDrainedFn_idem (s : ChainState) (c : Nat) :
    markDrainedFn (markDrainedFn s c) c = markDrainedFn s c := by
  cases hn : nextOf s c with
  | none => rw [markDrainedFn_of_next_none hn, markDrainedFn_of_next_none hn]
  | some d =>
    by_cases hd : drainedOf s c
    · rw [markDrainedFn_of_drained hd, markDrainedFn_of_drained hd]
    · have hd' : drainedOf s c = false := by rwa [Bool.not_eq_true] at hd
      exact markDrainedFn_of_drained (markDrained_drains hn hd')

theorem markDrainedFn_drained_ne {s : ChainState} {c d : Nat}
    (hn : nextOf s c = some d) (hdc : d ≠ c) {j : Nat} (hj : j ≠ c) :
    drainedOf (markDrainedFn s c) j = drainedOf s j := by
  by_cases hd : drainedOf s c
  · rw [markDrainedFn_of_drained hd]
  · have hd' : drainedOf s c = false := by rwa [Bool.not_eq_true] at hd
    rw [drainedOf_markDrainedFn hn hd' hdc, if_neg hj]

theorem cellNextFn_state :
    ∀ (fuel : Nat) (s : ChainState) (c : Nat) (s' : ChainState) (r : Nat),
      cellNextFn fuel s c = some (s', r) → s' = markDrainedFn s c := by
  intro fuel
  induction fuel with
  | zero =>
    intro s c s' r h
    exact absurd h (by simp [cellNextFn])
  | succ fuel ih =>
    intro s c s' r h
    simp only [cellNextFn] at h
    split at h
    · exact absurd h (by simp)
    · next d hn =>
      split at h
      · next hdr =>
        have h1 := ih _ _ _ _ h
        rwa [markDrainedFn_of_drained hdr] at h1
      · next hdr =>
        rw [Option.some.injEq, Prod.mk.injEq] at h
        exact h.1.symm

theorem cellNextFn_succ_none {fuel : Nat} {s : ChainState} {c : Nat}
    (hn : nextOf s c = none) : cellNextFn (fuel + 1) s c = none := by
  simp only [cellNextFn, hn]

theorem cellNextFn_succ_some {fuel : Nat} {s : ChainState} {c d : Nat}
    (hn : nextOf s c = some d) :
    cellNextFn (fuel + 1) s c =
      if drainedOf (markDrainedFn s c) d = true then cellNextFn fuel (markDrainedFn s c) d
      else some (markDrainedFn s c, d) := by
  simp only [cellNextFn, hn]

theorem cellNextFn_idem {fuel : Nat} {s : ChainState} {c : Nat} {s' : ChainState} {r : Nat}
    (h : cellNextFn fuel s c = some (s', r)) : cellNextFn fuel s' c = some (s', r) := by
  cases fuel with
  | zero => exact absurd h (by simp [cellNextFn])
  | succ fuel =>
    have hst := cellNextFn_state _ _ _ _ _ h
    cases hn : nextOf s c with
    | none => rw [cellNextFn_succ_none hn] at h; exact absurd h (by simp)
    | some d =>
      rw [cellNextFn_succ_some hn] at h
      have hn' : nextOf s' c = some d := by
        rw [hst, markDrainedFn_next]; exact hn
      rw [cellNextFn_succ_some hn']
      have hmm : markDrainedFn s' c = s' := by
        rw [hst]; exact markDrainedFn_idem s c
      rw [hmm]
      split at h
      · next hdr =>
        have hdr' : drainedOf s' d = true := by rw [hst]; exact hdr
        rw [if_pos hdr']
        have h2 := cellNextFn_state _ _ _ _ _ h
        rw [markDrainedFn_of_drained hdr] at h2
        rw [← h2] at h
        exact h
      · next hdr =>
        rw [Option.some.injEq, Prod.mk.injEq] at h
        have hdr' : ¬ drainedOf s' d = true := by rw [hst]; exact hdr
        rw [if_neg hdr', Option.some.injEq, Prod.mk.injEq]
        exact ⟨rfl, h.2⟩

theorem cellNextFn_walk :
    ∀ (fuel : Nat) (s : ChainState) (c : Nat) (s' : ChainState) (r : Nat),
      ChainInv s → Reachable s → cellNextFn fuel s c = some (s', r) →
        c < r ∧ (∀ j, c < j → j < r → drainedOf s j = true) ∧ drainedOf s r = false := by
  intro fuel
  induction fuel with
  | zero =>
    intro s c s' r _ _ h
    exact absurd h (by simp [cellNextFn])
  | succ fuel ih =>
    intro s c s' r hs hre h
    cases hn : nextOf s c with
    | none => rw [cellNextFn_succ_none hn] at h; exact absurd h (by simp)
    | some d =>
      obtain ⟨hc1, hde⟩ := nextOf_some_facts hs hn
      subst hde
      rw [cellNextFn_succ_some hn] at h
      have hdc : (c + 1 : Nat) ≠ c := by omega
      have hs1 : ChainInv (markDrainedFn s c) := inv_markDrainedFn hs c
      have hre1 : Reachable (markDrainedFn s c) :=
        Relation.ReflTransGen.tail hre (Step.markDrained s c)
      split at h
      · next hdd =>
        obtain ⟨h1, h2, h3⟩ := ih _ _ _ _ hs1 hre1 h
        refine ⟨by omega, ?_, ?_⟩
        · intro j hj1 hj2
          by_cases hjc1 : j = c + 1
          · subst hjc1
            rwa [markDrainedFn_drained_ne hn hdc hdc] at hdd
          · have hj' : c + 1 < j := by omega
            have hd1 := h2 j hj' hj2
            rwa [markDrainedFn_drained_ne hn hdc (by omega)] at hd1
        · rwa [markDrainedFn_drained_ne hn hdc (by omega)] at h3
      · next hdd =>
        rw [Option.some.injEq, Prod.mk.injEq] at h
        obtain ⟨h1, h2⟩ := h
        subst h2
        refine ⟨by omega, ?_, ?_⟩
        · intro j hj1 hj2; omega
        · rw [Bool.not_eq_true] at hdd
          rwa [markDrainedFn_drained_ne hn hdc hdc] at hdd

theorem consumeFn_next (s : ChainState) (j : Nat) :
    nextOf (consumeFn s) j = nextOf s j := by
  by_cases h : (s.cells s.head).rd < (s.cells s.head).enq.length
  · show Cell.next ((consumeFn s).cells j) = _
    rw [cells_consumeFn h]
    split
    · next he => subst he; rfl
    · rfl
  · rw [consumeFn_of_done h]

theorem advanceHeadFn_tail (s : ChainState) : (advanceHeadFn s).tail = s.tail := by
  by_cases h : (s.cells s.head).rd = (s.cells s.head).enq.length
  · cases hn : (s.cells s.head).next with
    | none => rw [advanceHeadFn_of_next_none h hn]
    | some d =>
      rw [advanceHeadFn_of_next_some h hn]
      exact (markDrainedFn_other s s.head).1
  · rw [advanceHeadFn_of_unread h]

theorem advanceHeadFn_next (s : ChainState) (j : Nat) :
    nextOf (advanceHeadFn s) j = nextOf s j := by
  by_cases h : (s.cells s.head).rd = (s.cells s.head).enq.length
  · cases hn : (s.cells s.head).next with
    | none => rw [advanceHeadFn_of_next_none h hn]
    | some d =>
      rw [advanceHeadFn_of_next_some h hn]
      exact markDrainedFn_next s s.head j
  · rw [advanceHeadFn_of_unread h]

theorem step_preserves_terminated {s s₂ : ChainState} (h : Step s s₂)
    (ht : s.tail = none) : s₂.tail = none := by
  cases h with
  | enqueue t m hta => rw [ht] at hta; exact absurd hta (by simp)
  | expand r =>
    have hne : ¬ s.tail = some r := by rw [ht]; simp
    rw [expandFn_neg hne]
    exact ht
  | terminate s2 hterm =>
    unfold terminateFn at hterm
    split at hterm
    · exact absurd hterm (by simp)
    · rw [← Option.some.inj hterm]
  | consume => rw [(consumeFn_other s).1]; exact ht
  | advanceHead => rw [advanceHeadFn_tail s]; exact ht
  | markDrained c => rw [(markDrainedFn_other s c).1]; exact ht

theorem withCell_false_tail {σ : Type} :
    ∀ (fuel : Nat) (s : ChainState) (x : σ) (f : Consumer σ) (b : Bool)
      (s' : ChainState) (x' : σ),
      withCell fuel s x f = some (b, s', x') → (b = false ↔ s'.tail = none) := by
  intro fuel
  induction fuel with
  | zero =>
    intro s x f b s' x' h
    exact absurd h (by simp [withCell])
  | succ fuel ih =>
    intro s x f b s' x' h
    simp only [withCell] at h
    split at h
    · next ht =>
      rw [Option.some.injEq, Prod.mk.injEq, Prod.mk.injEq] at h
      obtain ⟨hb, hss, _⟩ := h
      constructor
      · intro _; rw [← hss]; exact ht
      · intro _; exact hb.symm
    · next c ht =>
      split at h
      · next x1 hr =>
        rw [Option.some.injEq, Prod.mk.injEq, Prod.mk.injEq] at h
        obtain ⟨hb, hss, _⟩ := h
        constructor
        · intro hbf
          rw [hbf] at hb
          exact absurd hb (by simp)
        · intro ht'
          have : s.tail = none := by rw [hss]; exact ht'
          rw [ht] at this
          exact absurd this (by simp)
      · next x1 hr => exact ih _ _ _ _ _ _ h
      · next g x1 hr => exact ih _ _ _ _ _ _ h

theorem enqChain_split (e : Nat → List Nat) :
    ∀ (m k : Nat), k ≤ m → ∃ t, enqChain e m = enqChain e k ++ t := by
  intro m
  induction m with
  | zero =>
    intro k hk
    have : k = 0 := by omega
    subst this
    exact ⟨[], rfl⟩
  | succ m ih =>
    intro k hk
    by_cases hkm : k = m + 1
    · subst hkm
      exact ⟨[], by simp⟩
    · obtain ⟨t, hts⟩ := ih k (by omega)
      refine ⟨t ++ e m, ?_⟩
      show enqChain e m ++ e m = _
      rw [hts, List.append_assoc]

/-- The state right after Terminate on a fresh chain. -/
def terminatedState : ChainState :=
  { initialState with tail := none, termClosed := true }

/-- A caller whose enqueue attempt always succeeds. -/
def acceptAlways : Consumer Unit := Consumer.mk (fun _ x => (true, none, x))

/-- A caller whose enqueue attempt always reports a full buffer. -/
def refuseAlways : Consumer Unit := Consumer.mk (fun _ x => (false, none, x))

/-- C1: a WithCell call returns false exactly when the tail cursor held
the nil "closed" sentinel at the moment of the attempt (first
conjunct, both directions), a call made on a terminated tail returns
false at once leaving the state unchanged (second), Terminate leaves
the sentinel in place (third), and no step of the system ever replaces
the sentinel (fourth) — so after Terminate completes every subsequent
WithCell call returns false, and false is never returned for any other
reason. -/
theorem withCell_false_iff_terminated {σ : Type} (fuel : Nat) (s : ChainState)
    (x : σ) (f : Consumer σ) :
    (∀ b s' x', withCell fuel s x f = some (b, s', x') → (b = false ↔ s'.tail = none))
    ∧ (s.tail = none → withCell (fuel + 1) s x f = some (false, s, x))
    ∧ (∀ t', terminateFn s = some t' → t'.tail = none)
    ∧ (∀ s₂, s.tail = none → Relation.ReflTransGen Step s s₂ → s₂.tail = none) := by
  refine ⟨?_, ?_, ?_, ?_⟩
  · intro b s' x' h
    exact withCell_false_tail fuel s x f b s' x' h
  · intro ht
    simp [withCell, ht]
  · intro t' ht
    unfold terminateFn at ht
    split at ht
    · exact absurd ht (by simp)
    · rw [← Option.some.inj ht]
  · intro s₂ ht hsteps
    induction hsteps with
    | refl => exact ht
    | tail hr hstep ih => exact step_preserves_terminated hstep ih

theorem withCell_false_iff_terminated_witness :
    (false = false ↔ terminatedState.tail = none)
    ∧ withCell 1 terminatedState () acceptAlways = some (false, terminatedState, ())
    ∧ terminatedState.tail = none := by
  refine ⟨?_, ?_, ?_⟩
  · exact (withCell_false_iff_terminated 1 terminatedState () acceptAlways).1
      false terminatedState () rfl
  · exact (withCell_false_iff_terminated 0 terminatedState () acceptAlways).2.1 rfl
  · exact (withCell_false_iff_terminated 0 initialState () acceptAlways).2.2.1
      terminatedState rfl

/-- C5: one iteration of WithCell on a non-terminated tail whose
current cell is c: a (true, _) attempt result makes the call return
true with no structural change; a (false, no-continuation) result
grows via expand on that very cell and retries with the original
attempt; a (false, continuation) result retries immediately with the
continuation, with no growth and no structural change. -/
theorem withCell_iteration {σ : Type} (fuel : Nat) (s : ChainState) (x : σ)
    (run : Nat → σ → Bool × Option (Consumer σ) × σ) (c : Nat) (h : s.tail = some c) :
    (∀ k x', run c x = (true, k, x') →
        withCell (fuel + 1) s x (Consumer.mk run) = some (true, s, x'))
    ∧ (∀ x', run c x = (false, none, x') →
        withCell (fuel + 1) s x (Consumer.mk run)
          = withCell fuel (expandFn s c) x' (Consumer.mk run))
    ∧ (∀ g x', run c x = (false, some g, x') →
        withCell (fuel + 1) s x (Consumer.mk run) = withCell fuel s x' g) := by
  refine ⟨?_, ?_, ?_⟩
  · intro k x' hr
    simp [withCell, h, Consumer.run, hr]
  · intro x' hr
    simp [withCell, h, Consumer.run, hr]
  · intro g x' hr
    simp [withCell, h, Consumer.run, hr]

theorem withCell_iteration_witness :
    withCell 1 initialState () (Consumer.mk (fun _ x => (true, none, x)))
      = some (true, initialState, ())
    ∧ withCell 1 initialState () (Consumer.mk (fun _ x => (false, none, x)))
      = withCell 0 (expandFn initialState 0) ()
          (Consumer.mk (fun _ x => (false, none, x)))
    ∧ withCell 1 initialState ()
        (Consumer.mk (fun _ x => (false, some acceptAlways, x)))
      = withCell 0 initialState () acceptAlways := by
  refine ⟨?_, ?_, ?_⟩
  · exact (withCell_iteration 0 initialState () (fun _ x => (true, none, x)) 0 rfl).1
      none () rfl
  · exact (withCell_iteration 0 initialState () (fun _ x => (false, none, x)) 0 rfl).2.1
      () rfl
  · exact (withCell_iteration 0 initialState ()
      (fun _ x => (false, some acceptAlways, x)) 0 rfl).2.2 acceptAlways () rfl

/-- C10: Terminate is not idempotent: whenever one Terminate call
succeeds, a second call on the resulting state faults (it closes the
already-closed Terminated channel, which panics — modelled as none),
even though re-writing the nil sentinel into the tail cursor alone
would leave the state unchanged. -/
theorem terminate_not_idempotent (s s' : ChainState) (h : terminateFn s = some s') :
    terminateFn s' = none ∧ ({ s' with tail := none } : ChainState) = s' := by
  unfold terminateFn at h
  split at h
  · exact absurd h (by simp)
  · rw [← Option.some.inj h]
    exact ⟨rfl, rfl⟩

theorem terminate_not_idempotent_witness :
    terminateFn terminatedState = none
    ∧ ({ terminatedState with tail := none } : ChainState) = terminatedState :=
  terminate_not_idempotent initialState terminatedState rfl

/-- C2: end-to-end FIFO. In every reachable state the consumer's
observation log is a prefix of the concatenation, in chain creation
order, of the per-cell enqueue sequences — so no message written into
an earlier cell is ever observed after a message written into a later
cell, and within one cell the buffer's write order is preserved.  The
ordering holds because expand seals a cell and hands the tail cursor
to its successor in one lock-protected step, enqueues go only into the
cell the tail cursor designates, and the consumer advances past a cell
only once it has read the cell's whole buffer. -/
theorem fifo_log_is_chain_order {s : ChainState} (hs : Reachable s) :
    s.log = (enqChain (enqOf s) s.numCells).take s.log.length := by
  have inv := inv_reachable hs
  obtain ⟨t, ht⟩ := enqChain_split (enqOf s) s.numCells (s.head + 1) inv.headLt
  have key : enqChain (enqOf s) s.numCells
      = s.log ++ ((enqOf s s.head).drop (rdOf s s.head) ++ t) := by
    rw [ht]
    show (enqChain (enqOf s) s.head ++ enqOf s s.head) ++ t = _
    calc (enqChain (enqOf s) s.head ++ enqOf s s.head) ++ t
        = (enqChain (enqOf s) s.head
            ++ ((enqOf s s.head).take (rdOf s s.head)
                ++ (enqOf s s.head).drop (rdOf s s.head))) ++ t := by
          rw [List.take_append_drop]
      _ = (enqChain (enqOf s) s.head ++ (enqOf s s.head).take (rdOf s s.head))
            ++ ((enqOf s s.head).drop (rdOf s s.head) ++ t) := by
          simp only [List.append_assoc]
      _ = s.log ++ ((enqOf s s.head).drop (rdOf s s.head) ++ t) := by
          rw [← inv.logEq]
  rw [key, List.take_left]

theorem fifo_log_is_chain_order_witness :
    (consumeFn (enqueueFn initialState 0 7)).log
      = (enqChain (enqOf (consumeFn (enqueueFn initialState 0 7)))
          (consumeFn (enqueueFn initialState 0 7)).numCells).take
            (consumeFn (enqueueFn initialState 0 7)).log.length :=
  fifo_log_is_chain_order
    (Relation.ReflTransGen.tail
      (Relation.ReflTransGen.single (Step.enqueue initialState 0 7 rfl))
      (Step.consume (enqueueFn initialState 0 7)))

/-- The chain after k unconditional growths: growN (k+1) grows the
then-current tail cell k, so growN k has cells 0..k. -/
def growN : Nat → ChainState
  | 0 => initialState
  | k + 1 => expandFn (growN k) k

theorem growN_facts : ∀ k, (growN k).tail = some k ∧ (growN k).numCells = k + 1
    ∧ Reachable (growN k) := by
  intro k
  induction k with
  | zero => exact ⟨rfl, rfl, Relation.ReflTransGen.refl⟩
  | succ k ih =>
    obtain ⟨ht, hn, hr⟩ := ih
    refine ⟨?_, ?_, Relation.ReflTransGen.tail hr (Step.expand (growN k) k)⟩
    · show (expandFn (growN k) k).tail = some (k + 1)
      rw [expandFn_tail ht, hn]
    · show (expandFn (growN k) k).numCells = k + 1 + 1
      rw [expandFn_numCells ht, hn]

/-- C3 counterexample: "the k-th cell created has capacity
16 * 2^(k-1)" fails on the code because tail.n *= 2 is Go machine-int
arithmetic, which wraps on overflow.  Growth is unconditional, so 59
growths are a real reachable execution (a caller may keep answering
(false, nil)); the 60th cell (index 59) is then initialized with
capacity wrap64(2^63) = -2^63, not 16 * 2^59. -/
theorem capacity_wraps_counterexample :
    Reachable (growN 59)
    ∧ 59 < (growN 59).numCells
    ∧ capOf (growN 59) 59 = -(2 ^ 63)
    ∧ capOf (growN 59) 59 ≠ 16 * 2 ^ 59 := by
  obtain ⟨ht, hn, hr⟩ := growN_facts 59
  have inv := inv_reachable hr
  have hcap := inv.capEq 59 (by omega)
  have hval : wrap64 (DefaultChanLength * 2 ^ 59) = -(2 ^ 63) := by
    norm_num [wrap64, DefaultChanLength]
  refine ⟨hr, by omega, ?_, ?_⟩
  · rw [hcap, hval]
  · rw [hcap, hval]
    norm_num

/-- C3 amended: the first cell is initialized with capacity
DefaultChanLength = 16; every growth initializes the new cell with the
previous cell's capacity doubled in Go's wrapping 64-bit int
arithmetic; hence the k-th cell created (index k-1) has capacity
wrap64(16 * 2^(k-1)), which equals 16 * 2^(k-1) exactly for the first
59 cells (indices 0..58), i.e. until the doubling first overflows. -/
theorem capacity_doubling_wrapped {s : ChainState} (hs : Reachable s) :
    capOf s 0 = 16
    ∧ (∀ i, i + 1 < s.numCells → capOf s (i + 1) = wrap64 (2 * capOf s i))
    ∧ (∀ k, k < s.numCells → capOf s k = wrap64 (16 * 2 ^ k))
    ∧ (∀ k, k < s.numCells → k ≤ 58 → capOf s k = 16 * 2 ^ k) := by
  have inv := inv_reachable hs
  have hc : ∀ k, k < s.numCells → capOf s k = wrap64 (16 * 2 ^ k) := by
    intro k hk
    rw [inv.capEq k hk]
    rfl
  have hexact : ∀ k, k < s.numCells → k ≤ 58 → capOf s k = 16 * 2 ^ k := by
    intro k hk hk58
    rw [hc k hk]
    apply wrap64_eq_self
    · have hp : (0 : Int) < 2 ^ k := pow_pos (by norm_num) k
      have h63 : (0 : Int) < 2 ^ 63 := pow_pos (by norm_num) 63
      linarith
    · have h1 : (16 : Int) * 2 ^ k = 2 ^ (k + 4) := by
        rw [pow_add]
        ring
      rw [h1]
      calc (2 : Int) ^ (k + 4) ≤ 2 ^ 62 := pow_le_pow_right₀ (by norm_num) (by omega)
        _ < 2 ^ 63 := by norm_num
  refine ⟨?_, ?_, hc, hexact⟩
  · have := hexact 0 inv.numPos (by omega)
    simpa using this
  · intro i hi
    rw [hc (i + 1) hi, hc i (by omega)]
    rw [show (2 : Int) * wrap64 (16 * 2 ^ i) = wrap64 (16 * 2 ^ i) * 2 by ring,
      wrap64_double]
    congr 1
    rw [pow_succ]
    ring

theorem capacity_doubling_wrapped_witness :
    capOf (expandFn initialState 0) 0 = 16
    ∧ capOf (expandFn initialState 0) 1
        = wrap64 (2 * capOf (expandFn initialState 0) 0)
    ∧ capOf (expandFn initialState 0) 1 = wrap64 (16 * 2 ^ 1)
    ∧ capOf (expandFn initialState 0) 1 = 16 * 2 ^ 1 := by
  have h := capacity_doubling_wrapped
    (Relation.ReflTransGen.single (Step.expand initialState 0))
  exact ⟨h.1, h.2.1 0 (by decide), h.2.2.1 1 (by decide),
    h.2.2.2 1 (by decide) (by decide)⟩

/-- C4: expand re-checks under the exclusive lock that the tail cursor
still designates the stale cell.  If not, it is a strict no-op; if so,
it creates exactly one successor (numCells grows by one), doubles n in
Go's wrapping 64-bit int arithmetic (wrap64 (s.n * 2), which is exact
doubling whenever s.n is in range), initializes the new cell with the
doubled n, sets the stale cell's next link, advances the tail cursor,
and bumps the stale cell's Close count by one.  Running expand twice
for the same stale cell equals running it once, so M producers that
observed the same full cell produce exactly one successor. -/
theorem expand_recheck_exactly_once {s : ChainState} (hs : Reachable s) (r : Nat) :
    (¬ s.tail = some r → expandFn s r = s)
    ∧ (s.tail = some r →
        (expandFn s r).numCells = s.numCells + 1
        ∧ (expandFn s r).n = wrap64 (s.n * 2)
        ∧ (-(2 ^ 62) ≤ s.n → s.n < 2 ^ 62 → (expandFn s r).n = s.n * 2)
        ∧ capOf (expandFn s r) s.numCells = wrap64 (s.n * 2)
        ∧ nextOf (expandFn s r) r = some s.numCells
        ∧ (expandFn s r).tail = some s.numCells
        ∧ closedOf (expandFn s r) r = closedOf s r + 1)
    ∧ expandFn (expandFn s r) r = expandFn s r := by
  have inv := inv_reachable hs
  refine ⟨fun h => expandFn_neg h, ?_, ?_⟩
  · intro h
    have hrn : r ≠ s.numCells := by
      have := inv.tailLast r h
      omega
    obtain ⟨hcap, hnext, hclosed, _, _, _, _⟩ := expandFn_getters h hrn
    refine ⟨expandFn_numCells h, expandFn_n h, ?_, ?_, ?_, expandFn_tail h, ?_⟩
    · intro hlow hhigh
      rw [expandFn_n h]
      apply wrap64_eq_self
      · have h63 : (2 : Int) ^ 63 = 2 * 2 ^ 62 := by norm_num
        linarith
      · have h63 : (2 : Int) ^ 63 = 2 * 2 ^ 62 := by norm_num
        linarith
    · rw [hcap s.numCells, if_pos rfl]
    · rw [hnext r, if_pos rfl]
    · rw [hclosed r, if_pos rfl]
  · by_cases h : s.tail = some r
    · have hrn : r ≠ s.numCells := by
        have := inv.tailLast r h
        omega
      apply expandFn_neg
      rw [expandFn_tail h]
      intro he
      exact hrn (Option.some.inj he).symm
    · rw [expandFn_neg h, expandFn_neg h]

theorem expand_recheck_exactly_once_witness :
    expandFn (expandFn initialState 0) 0 = expandFn initialState 0
    ∧ (expandFn initialState 0).numCells = 2
    ∧ (expandFn initialState 0).n = initialState.n * 2
    ∧ expandFn initialState 1 = initialState := by
  have h := expand_recheck_exactly_once Relation.ReflTransGen.refl 0
  have h1 := expand_recheck_exactly_once Relation.ReflTransGen.refl 1
  refine ⟨h.2.2, ?_, ?_, h1.1 (by decide)⟩
  · rw [(h.2.1 rfl).1]
    decide
  · exact (h.2.1 rfl).2.2.1 (by decide) (by decide)

/-- C8 counterexample: Terminate does not invoke Close on the cell
that is current when it runs.  After Terminate on a fresh chain, the
sole cell has stopped accepting writes (the tail cursor is the nil
sentinel) yet its Close count is 0, contradicting the claim that
every segment's Close fires exactly once when its write side is
sealed, including the segment current at Terminate. -/
theorem terminate_close_uncalled :
    terminateFn initialState = some terminatedState
    ∧ terminatedState.tail = none
    ∧ closedOf terminatedState 0 = 0 :=
  ⟨rfl, rfl, rfl⟩

/-- C8 amended: Close fires exactly once for every cell sealed by
growth — in every reachable state a cell's Close count is 1 exactly
when its next link is set (expand sealed it when creating that
successor) and 0 otherwise; in particular the cell that is current
when Terminate runs (the last cell, whose next link is never set)
never has Close invoked by the core. -/
theorem close_iff_sealed_by_growth {s : ChainState} (hs : Reachable s) :
    ∀ i, i < s.numCells → closedOf s i = if (nextOf s i).isSome then 1 else 0 := by
  have inv := inv_reachable hs
  intro i hi
  rw [inv.closedEq i hi, inv.nextEq i hi]
  by_cases h1 : i + 1 < s.numCells
  · simp [h1]
  · simp [h1]

theorem close_iff_sealed_by_growth_witness :
    closedOf (expandFn initialState 0) 0
      = if (nextOf (expandFn initialState 0) 0).isSome then 1 else 0 :=
  close_iff_sealed_by_growth
    (Relation.ReflTransGen.single (Step.expand initialState 0)) 0 (by decide)

/-- C9: in every reachable state every set next link points to the
cell created immediately after its owner (so the chain is a strictly
forward singly-linked list, never cyclic and never pointing back), the
tail cursor's current cell always has its next link unset, and the
only step that ever changes a next link is an expand on the very cell
the tail cursor designates, which sets it (once) from unset to the
fresh successor. -/
theorem next_link_set_once_forward {s : ChainState} (hs : Reachable s) :
    (∀ i d, nextOf s i = some d → d = i + 1)
    ∧ (∀ t, s.tail = some t → nextOf s t = none)
    ∧ (∀ s₂, Step s s₂ → ∀ i, nextOf s₂ i ≠ nextOf s i →
        s.tail = some i ∧ nextOf s i = none ∧ nextOf s₂ i = some (i + 1)) := by
  have inv := inv_reachable hs
  refine ⟨?_, ?_, ?_⟩
  · intro i d hn
    exact (nextOf_some_facts inv hn).2
  · intro t ht
    have h1 := inv.tailLast t ht
    rw [inv.nextEq t (by omega), if_neg (by omega)]
  · intro s₂ hstep i hne
    cases hstep with
    | enqueue t m hta =>
      exact absurd
        (getter_updateCell Cell.next s t
          (fun c => { c with enq := c.enq ++ [m] }) i (fun _ => rfl)) hne
    | expand r =>
      by_cases h : s.tail = some r
      · have h1 := inv.tailLast r h
        have hrn : r ≠ s.numCells := by omega
        have hg := (expandFn_getters h hrn).2.1 i
        by_cases hir : i = r
        · subst hir
          have hnone : nextOf s i = none := by
            rw [inv.nextEq i (by omega), if_neg (by omega)]
          refine ⟨h, hnone, ?_⟩
          rw [hg, if_pos rfl, ← h1]
        · exfalso
          rw [hg, if_neg hir] at hne
          by_cases hin : i = s.numCells
          · rw [if_pos hin] at hne
            apply hne
            apply Eq.symm
            show (s.cells i).next = none
            rw [inv.unalloc i (by omega)]
            rfl
          · rw [if_neg hin] at hne
            exact hne rfl
      · rw [expandFn_neg h] at hne
        exact absurd rfl hne
    | terminate s2 ht =>
      exfalso
      apply hne
      unfold terminateFn at ht
      split at ht
      · exact absurd ht (by simp)
      · rw [← Option.some.inj ht]
        rfl
    | consume => exact absurd (consumeFn_next s i) hne
    | advanceHead => exact absurd (advanceHeadFn_next s i) hne
    | markDrained c => exact absurd (markDrainedFn_next s c i) hne

theorem next_link_set_once_forward_witness :
    ((1 : Nat) = 0 + 1)
    ∧ nextOf initialState 0 = none
    ∧ (initialState.tail = some 0 ∧ nextOf initialState 0 = none
        ∧ nextOf (expandFn initialState 0) 0 = some (0 + 1)) := by
  refine ⟨?_, ?_, ?_⟩
  · exact (next_link_set_once_forward
      (Relation.ReflTransGen.single (Step.expand initialState 0))).1 0 1 rfl
  · exact (next_link_set_once_forward Relation.ReflTransGen.refl).2.1 0 rfl
  · exact (next_link_set_once_forward Relation.ReflTransGen.refl).2.2
      (expandFn initialState 0) (Step.expand initialState 0) 0 (by decide)

/-- C6: in every reachable state every cell's Open count is at most 1,
and it is exactly 1 precisely when the cell became the active read
cell (cell 0 at creation; a later cell once its predecessor was
drained) and 0 otherwise — so Open fires exactly once per cell, at
that hand-off.  Moreover the advance operation converges: a repeated
(or racing) ChanCell.Next on the same cell returns the identical
successor cell and changes nothing further, so all consumers agree on
the next cell and cannot fire Open again. -/
theorem open_fires_once_and_advance_converges {s : ChainState} (hs : Reachable s) :
    (∀ i, openedOf s i ≤ 1)
    ∧ (∀ i, i < s.numCells →
        openedOf s i = if i = 0 then 1 else if drainedOf s (i - 1) then 1 else 0)
    ∧ (∀ fuel c s' r, cellNextFn fuel s c = some (s', r) →
        cellNextFn fuel s' c = some (s', r)) := by
  have inv := inv_reachable hs
  refine ⟨?_, inv.openedEq, ?_⟩
  · intro i
    by_cases hi : i < s.numCells
    · rw [inv.openedEq i hi]
      split
      · omega
      · split <;> omega
    · show Cell.opened (s.cells i) ≤ 1
      rw [inv.unalloc i (by omega)]
      exact Nat.zero_le 1
  · intro fuel c s' r h
    exact cellNextFn_idem h

/-- The chain after one growth, its first cell drained by a consumer. -/
def afterGrowthDrained : ChainState := markDrainedFn (expandFn initialState 0) 0

theorem open_fires_once_and_advance_converges_witness :
    openedOf afterGrowthDrained 1 ≤ 1
    ∧ openedOf afterGrowthDrained 1
        = (if (1 : Nat) = 0 then 1 else if drainedOf afterGrowthDrained (1 - 1) then 1 else 0)
    ∧ cellNextFn 2 afterGrowthDrained 0 = some (afterGrowthDrained, 1) := by
  have hre : Reachable afterGrowthDrained :=
    Relation.ReflTransGen.tail
      (Relation.ReflTransGen.single (Step.expand initialState 0))
      (Step.markDrained (expandFn initialState 0) 0)
  have h := open_fires_once_and_advance_converges hre
  exact ⟨h.1 1, h.2.1 1 (by decide), h.2.2 2 0 afterGrowthDrained 1 rfl⟩

/-- C7: whenever ChanCell.Next on cell c returns, the state change is
exactly the drain/open region on c (mark c drained and fire the
successor's Open if c was not yet drained, nothing otherwise), and the
returned cell is the first non-drained cell strictly after c along the
next links — every cell strictly between was already drained, which is
what the recursion into an already-drained successor's own Next
achieves. -/
theorem cellNext_first_undrained {s : ChainState} (hs : Reachable s)
    (fuel c : Nat) (s' : ChainState) (r : Nat)
    (h : cellNextFn fuel s c = some (s', r)) :
    s' = markDrainedFn s c
    ∧ c < r
    ∧ (∀ j, c < j → j < r → drainedOf s j = true)
    ∧ drainedOf s r = false
    ∧ (drainedOf s c = false →
        drainedOf s' c = true ∧ openedOf s' (c + 1) = openedOf s (c + 1) + 1)
    ∧ (drainedOf s c = true → s' = s) := by
  have inv := inv_reachable hs
  have hst := cellNextFn_state _ _ _ _ _ h
  obtain ⟨h1, h2, h3⟩ := cellNextFn_walk fuel s c s' r inv hs h
  refine ⟨hst, h1, h2, h3, ?_, ?_⟩
  · intro hd
    have hex : ∃ d, nextOf s c = some d := by
      cases fuel with
      | zero => exact absurd h (by simp [cellNextFn])
      | succ fuel =>
        cases hn0 : nextOf s c with
        | none =>
          rw [cellNextFn_succ_none hn0] at h
          exact absurd h (by simp)
        | some d => exact ⟨d, rfl⟩
    obtain ⟨d, hn⟩ := hex
    obtain ⟨hc1, hde⟩ := nextOf_some_facts inv hn
    subst hde
    constructor
    · rw [hst]
      exact markDrained_drains hn hd
    · rw [hst, openedOf_markDrainedFn hn hd (by omega), if_pos rfl]
  · intro hd
    rw [hst, markDrainedFn_of_drained hd]

/-- A chain grown twice with both old cells drained; only the last
cell is live. -/
def twoDrained : ChainState :=
  markDrainedFn (markDrainedFn (expandFn (expandFn initialState 0) 1) 0) 1

theorem cellNext_first_undrained_witness :
    ((0 : Nat) < 2)
    ∧ (∀ j, 0 < j → j < 2 → drainedOf twoDrained j = true)
    ∧ drainedOf twoDrained 2 = false := by
  have hre : Reachable twoDrained :=
    Relation.ReflTransGen.tail
      (Relation.ReflTransGen.tail
        (Relation.ReflTransGen.tail
          (Relation.ReflTransGen.single (Step.expand initialState 0))
          (Step.expand (expandFn initialState 0) 1))
        (Step.markDrained (expandFn (expandFn initialState 0) 1) 0))
      (Step.markDrained (markDrainedFn (expandFn (expandFn initialState 0) 1) 0) 1)
  have h := cellNext_first_undrained hre 3 0 twoDrained 2 rfl
  exact ⟨h.2.1, h.2.2.1, h.2.2.2.1⟩
